import Mathlib

/-!
Verification of the `shamy` threshold Schnorr implementation

This file is a shallow embedding, in Lean 4, of the core of the `shamy`
Rust crate: Shamir secret sharing over the secp256k1 scalar field
(`src/shamir.rs`), Feldman VSS commitments (`src/vss.rs`), the Schnorr
primitive (`src/schnorr.rs`), the Lagrange-interpolation threshold
aggregator (`src/threshold.rs`), the hex encoding helpers
(`src/util.rs`), and the duplicated crate-root API (`src/lib.rs`).

Modelling conventions

* The crate's arithmetic happens in the `k256` types `Scalar`
  (integers modulo the secp256k1 group order `q`) and
  `ProjectivePoint` (the secp256k1 curve group).  The spec treats
  these primitives as an external, already-correct dependency.
  `Scalar` is embedded as `ZMod qOrder`.  The secp256k1 point group is
  cyclic of prime order `q` with generator `G`, so the map
  `k ↦ k·G : ZMod q → E` is an isomorphism of `ZMod q`-modules; every
  point-group operation the crate uses (addition, identity, scalar
  multiplication, equality) is transported exactly along it.  `Point`
  is therefore embedded as the exponent: `Point := ZMod qOrder` with
  `GENERATOR = 1`.  All algebraic statements proved below are
  statements in the language of the group generated by `G` and are
  preserved in both directions by that isomorphism.
* For the SEC1 serialization claims the byte-level view of a point
  (affine coordinates over the base field `p = 2^256 - 2^32 - 977`) is
  embedded separately; serialization never uses the group law.
* Rust panics (`assert!`, `.unwrap()`) are modelled as `Option.none`;
  Rust `Result` values are modelled as `Except String`.
* `u64` / `usize` values are modelled as `Nat` together with explicit
  `< 2^64` bounds where the claim needs them.
* Randomness (`Scalar::random(&mut OsRng)`) is modelled by passing the
  drawn scalars as explicit arguments, so every function is a
  deterministic function of its inputs and the sampled randomness.
* The Fiat-Shamir challenge `compute_challenge` is a fixed
  deterministic function of `(R, X, msg)` (SHA-256 over the SEC1
  encodings).  The correctness theorems below are proved for an
  arbitrary deterministic challenge function `chal`, which in
  particular covers the crate's SHA-256 instance.

The first section certifies that the secp256k1 group order is prime
(via Pratt/Lucas certificates), which is what makes `ZMod qOrder` a
field, matching the `k256::Scalar` field structure.
-/

set_option maxRecDepth 40000

/-- The secp256k1 group order `q`: the modulus of `k256::Scalar`. -/
def qOrder : Nat :=
  115792089237316195423570985008687907852837564279074904382605163141518161494337

instance : NeZero qOrder := ⟨by decide⟩

/-- The `k256::Scalar` type: integers modulo the secp256k1 group order. -/
abbrev Scalar : Type := ZMod qOrder

/-!
Fast modular exponentiation and Lucas certificates

`powModF` is binary modular exponentiation, structurally recursive on
an explicit fuel argument so that the kernel can evaluate it on
256-bit inputs.  It is used only to certify primality of `qOrder`.
-/

/-- Binary modular exponentiation with explicit fuel: for
`k < 2^fuel` and `0 < n`, `powModF fuel a k n = a ^ k % n`. -/
def powModF : Nat → Nat → Nat → Nat → Nat
  | 0, _, _, n => 1 % n
  | fuel+1, a, k, n =>
    if k = 0 then 1 % n
    else
      let h := powModF fuel (a * a % n) (k / 2) n
      if k % 2 = 1 then h * a % n else h

theorem powModF_correct : ∀ (fuel k : Nat), k < 2^fuel → ∀ (a n : Nat), 0 < n →
    powModF fuel a k n = a ^ k % n := by
  intro fuel
  induction fuel with
  | zero =>
    intro k hk a n hn
    have hk0 : k = 0 := by omega
    subst hk0
    simp [powModF]
  | succ m ih =>
    intro k hk a n hn
    by_cases hk0 : k = 0
    · subst hk0; simp [powModF]
    · have hpows : 2 ^ (m+1) = 2 ^ m * 2 := pow_succ 2 m
      have hk2 : k / 2 < 2 ^ m := by omega
      have ih' := ih (k/2) hk2 (a*a%n) n hn
      have hpow : (a*a%n) ^ (k/2) % n = a ^ (2*(k/2)) % n := by
        calc (a*a%n) ^ (k/2) % n = (a*a) ^ (k/2) % n := (Nat.pow_mod (a*a) (k/2) n).symm
        _ = (a^2) ^ (k/2) % n := by rw [pow_two]
        _ = a ^ (2*(k/2)) % n := by rw [← pow_mul]
      by_cases hpar : k % 2 = 1
      · have hks : k = 2*(k/2) + 1 := by omega
        show (if k = 0 then 1 % n else
          let h := powModF m (a * a % n) (k / 2) n
          if k % 2 = 1 then h * a % n else h) = a ^ k % n
        rw [if_neg hk0]
        simp only [hpar, if_true, ih', hpow]
        calc a ^ (2*(k/2)) % n * a % n = a ^ (2*(k/2)) * a % n := Nat.mod_mul_mod
        _ = a ^ (2*(k/2) + 1) % n := by rw [pow_succ]
        _ = a ^ k % n := by rw [← hks]
      · have hks : k = 2*(k/2) := by omega
        show (if k = 0 then 1 % n else
          let h := powModF m (a * a % n) (k / 2) n
          if k % 2 = 1 then h * a % n else h) = a ^ k % n
        rw [if_neg hk0]
        simp only [hpar, if_false, ih', hpow]
        rw [← hks]

theorem powModF_cast (p a k : Nat) (hp : 0 < p) (hk : k < 2^256) :
    ((powModF 256 a k p : Nat) : ZMod p) = (a : ZMod p)^k := by
  rw [powModF_correct 256 k hk a p hp, ZMod.natCast_mod, Nat.cast_pow]

theorem zmod_pow_eq_one (p a k : Nat) (hp : 0 < p) (hk : k < 2^256)
    (h : powModF 256 a k p = 1) : (a : ZMod p)^k = 1 := by
  rw [← powModF_cast p a k hp hk, h, Nat.cast_one]

theorem zmod_pow_ne_one (p a k : Nat) (hp : 1 < p) (hk : k < 2^256)
    (h : powModF 256 a k p ≠ 1) : (a : ZMod p)^k ≠ 1 := by
  have hp0 : 0 < p := by omega
  have hNZ : NeZero p := ⟨by omega⟩
  have hF : Fact (1 < p) := ⟨hp⟩
  intro hcontra
  rw [← powModF_cast p a k hp0 hk] at hcontra
  have hlt : powModF 256 a k p < p := by
    rw [powModF_correct 256 k hk a p hp0]; exact Nat.mod_lt _ hp0
  have hval := congrArg ZMod.val hcontra
  rw [ZMod.val_cast_of_lt hlt, ZMod.val_one p] at hval
  exact h hval

/-- Lucas primality with a concrete list of candidate prime divisors of
`p - 1` and `powModF`-checkable side conditions. -/
theorem lucas_cert (p a : Nat) (L : List Nat)
    (hp : 1 < p) (hk : p - 1 < 2^256)
    (h1 : powModF 256 a (p-1) p = 1)
    (hL : ∀ r : Nat, r.Prime → r ∣ p - 1 → r ∈ L)
    (hne : ∀ r ∈ L, powModF 256 a ((p-1)/r) p ≠ 1) : p.Prime := by
  apply lucas_primality p (a : ZMod p)
  · exact zmod_pow_eq_one p a (p-1) (by omega) hk h1
  · intro r hr hdvd
    have hdivlt : (p-1)/r < 2^256 := lt_of_le_of_lt (Nat.div_le_self _ _) hk
    exact zmod_pow_ne_one p a ((p-1)/r) hp hdivlt (hne r (hL r hr hdvd))

theorem prime_297159362677 : Nat.Prime 297159362677 := by
  have h2 : Nat.Prime 2 := Nat.prime_two
  have h3 : Nat.Prime 3 := Nat.prime_three
  have h11 : Nat.Prime 11 := by norm_num
  have h461 : Nat.Prime 461 := by norm_num
  have h1627771 : Nat.Prime 1627771 := by norm_num
  apply lucas_cert 297159362677 2 [2, 3, 11, 461, 1627771]
  · norm_num
  · decide
  · decide
  · intro r hr hdvd
    have hfact : (297159362677 - 1 : Nat) = 2^2 * (3^2 * (11 * (461 * 1627771))) := by norm_num
    rw [hfact] at hdvd
    rcases (Nat.Prime.dvd_mul hr).mp hdvd with h | h
    · have := (Nat.prime_dvd_prime_iff_eq hr h2).mp (Nat.Prime.dvd_of_dvd_pow hr h)
      simp [this]
    rcases (Nat.Prime.dvd_mul hr).mp h with h | h
    · have := (Nat.prime_dvd_prime_iff_eq hr h3).mp (Nat.Prime.dvd_of_dvd_pow hr h)
      simp [this]
    rcases (Nat.Prime.dvd_mul hr).mp h with h | h
    · have := (Nat.prime_dvd_prime_iff_eq hr h11).mp h
      simp [this]
    rcases (Nat.Prime.dvd_mul hr).mp h with h | h
    · have := (Nat.prime_dvd_prime_iff_eq hr h461).mp h
      simp [this]
    · have := (Nat.prime_dvd_prime_iff_eq hr h1627771).mp h
      simp [this]
  · intro r hrL
    fin_cases hrL <;> decide

theorem prime_44706919 : Nat.Prime 44706919 := by
  have h2 : Nat.Prime 2 := Nat.prime_two
  have h3 : Nat.Prime 3 := Nat.prime_three
  have h797 : Nat.Prime 797 := by norm_num
  have h9349 : Nat.Prime 9349 := by norm_num
  apply lucas_cert 44706919 6 [2, 3, 797, 9349]
  · norm_num
  · decide
  · decide
  · intro r hr hdvd
    have hfact : (44706919 - 1 : Nat) = 2 * (3 * (797 * 9349)) := by norm_num
    rw [hfact] at hdvd
    rcases (Nat.Prime.dvd_mul hr).mp hdvd with h | h
    · have := (Nat.prime_dvd_prime_iff_eq hr h2).mp h
      simp [this]
    rcases (Nat.Prime.dvd_mul hr).mp h with h | h
    · have := (Nat.prime_dvd_prime_iff_eq hr h3).mp h
      simp [this]
    rcases (Nat.Prime.dvd_mul hr).mp h with h | h
    · have := (Nat.prime_dvd_prime_iff_eq hr h797).mp h
      simp [this]
    · have := (Nat.prime_dvd_prime_iff_eq hr h9349).mp h
      simp [this]
  · intro r hrL
    fin_cases hrL <;> decide

theorem prime_545358713 : Nat.Prime 545358713 := by
  have h2 : Nat.Prime 2 := Nat.prime_two
  have h41 : Nat.Prime 41 := by norm_num
  have h59 : Nat.Prime 59 := by norm_num
  have h28181 : Nat.Prime 28181 := by norm_num
  apply lucas_cert 545358713 5 [2, 41, 59, 28181]
  · norm_num
  · decide
  · decide
  · intro r hr hdvd
    have hfact : (545358713 - 1 : Nat) = 2^3 * (41 * (59 * 28181)) := by norm_num
    rw [hfact] at hdvd
    rcases (Nat.Prime.dvd_mul hr).mp hdvd with h | h
    · have := (Nat.prime_dvd_prime_iff_eq hr h2).mp (Nat.Prime.dvd_of_dvd_pow hr h)
      simp [this]
    rcases (Nat.Prime.dvd_mul hr).mp h with h | h
    · have := (Nat.prime_dvd_prime_iff_eq hr h41).mp h
      simp [this]
    rcases (Nat.Prime.dvd_mul hr).mp h with h | h
    · have := (Nat.prime_dvd_prime_iff_eq hr h59).mp h
      simp [this]
    · have := (Nat.prime_dvd_prime_iff_eq hr h28181).mp h
      simp [this]
  · intro r hrL
    fin_cases hrL <;> decide

theorem prime_107361793816595537 : Nat.Prime 107361793816595537 := by
  have h2 : Nat.Prime 2 := Nat.prime_two
  have h16699 : Nat.Prime 16699 := by norm_num
  have h85831 : Nat.Prime 85831 := by norm_num
  have h4681609 : Nat.Prime 4681609 := by norm_num
  apply lucas_cert 107361793816595537 3 [2, 16699, 85831, 4681609]
  · norm_num
  · decide
  · decide
  · intro r hr hdvd
    have hfact : (107361793816595537 - 1 : Nat) = 2^4 * (16699 * (85831 * 4681609)) := by
      norm_num
    rw [hfact] at hdvd
    rcases (Nat.Prime.dvd_mul hr).mp hdvd with h | h
    · have := (Nat.prime_dvd_prime_iff_eq hr h2).mp (Nat.Prime.dvd_of_dvd_pow hr h)
      simp [this]
    rcases (Nat.Prime.dvd_mul hr).mp h with h | h
    · have := (Nat.prime_dvd_prime_iff_eq hr h16699).mp h
      simp [this]
    rcases (Nat.Prime.dvd_mul hr).mp h with h | h
    · have := (Nat.prime_dvd_prime_iff_eq hr h85831).mp h
      simp [this]
    · have := (Nat.prime_dvd_prime_iff_eq hr h4681609).mp h
      simp [this]
  · intro r hrL
    fin_cases hrL <;> decide

theorem prime_174723607534414371449 : Nat.Prime 174723607534414371449 := by
  have h2 : Nat.Prime 2 := Nat.prime_two
  have h17 : Nat.Prime 17 := by norm_num
  have h59 : Nat.Prime 59 := by norm_num
  have h4051 : Nat.Prime 4051 := by norm_num
  have h120233 : Nat.Prime 120233 := by norm_num
  have h44706919 : Nat.Prime 44706919 := prime_44706919
  apply lucas_cert 174723607534414371449 3 [2, 17, 59, 4051, 120233, 44706919]
  · norm_num
  · decide
  · decide
  · intro r hr hdvd
    have hfact : (174723607534414371449 - 1 : Nat) =
        2^3 * (17 * (59 * (4051 * (120233 * 44706919)))) := by norm_num
    rw [hfact] at hdvd
    rcases (Nat.Prime.dvd_mul hr).mp hdvd with h | h
    · have := (Nat.prime_dvd_prime_iff_eq hr h2).mp (Nat.Prime.dvd_of_dvd_pow hr h)
      simp [this]
    rcases (Nat.Prime.dvd_mul hr).mp h with h | h
    · have := (Nat.prime_dvd_prime_iff_eq hr h17).mp h
      simp [this]
    rcases (Nat.Prime.dvd_mul hr).mp h with h | h
    · have := (Nat.prime_dvd_prime_iff_eq hr h59).mp h
      simp [this]
    rcases (Nat.Prime.dvd_mul hr).mp h with h | h
    · have := (Nat.prime_dvd_prime_iff_eq hr h4051).mp h
      simp [this]
    rcases (Nat.Prime.dvd_mul hr).mp h with h | h
    · have := (Nat.prime_dvd_prime_iff_eq hr h120233).mp h
      simp [this]
    · have := (Nat.prime_dvd_prime_iff_eq hr h44706919).mp h
      simp [this]
  · intro r hrL
    fin_cases hrL <;> decide

theorem prime_29047611873442575647497758179 : Nat.Prime 29047611873442575647497758179 := by
  have h2 : Nat.Prime 2 := Nat.prime_two
  have h293 : Nat.Prime 293 := by norm_num
  have h305873 : Nat.Prime 305873 := by norm_num
  have h545358713 : Nat.Prime 545358713 := prime_545358713
  have hbig : Nat.Prime 297159362677 := prime_297159362677
  apply lucas_cert 29047611873442575647497758179 2 [2, 293, 305873, 545358713, 297159362677]
  · norm_num
  · decide
  · decide
  · intro r hr hdvd
    have hfact : (29047611873442575647497758179 - 1 : Nat) =
        2 * (293 * (305873 * (545358713 * 297159362677))) := by norm_num
    rw [hfact] at hdvd
    rcases (Nat.Prime.dvd_mul hr).mp hdvd with h | h
    · have := (Nat.prime_dvd_prime_iff_eq hr h2).mp h
      simp [this]
    rcases (Nat.Prime.dvd_mul hr).mp h with h | h
    · have := (Nat.prime_dvd_prime_iff_eq hr h293).mp h
      simp [this]
    rcases (Nat.Prime.dvd_mul hr).mp h with h | h
    · have := (Nat.prime_dvd_prime_iff_eq hr h305873).mp h
      simp [this]
    rcases (Nat.Prime.dvd_mul hr).mp h with h | h
    · have := (Nat.prime_dvd_prime_iff_eq hr h545358713).mp h
      simp [this]
    · have := (Nat.prime_dvd_prime_iff_eq hr hbig).mp h
      simp [this]
  · intro r hrL
    fin_cases hrL <;> decide

theorem prime_341948486974166000522343609283189 :
    Nat.Prime 341948486974166000522343609283189 := by
  have h2 : Nat.Prime 2 := Nat.prime_two
  have h3 : Nat.Prime 3 := Nat.prime_three
  have h109 : Nat.Prime 109 := by norm_num
  have hbig : Nat.Prime 29047611873442575647497758179 := prime_29047611873442575647497758179
  apply lucas_cert 341948486974166000522343609283189 2 [2, 3, 109, 29047611873442575647497758179]
  · norm_num
  · decide
  · decide
  · intro r hr hdvd
    have hfact : (341948486974166000522343609283189 - 1 : Nat) =
        2^2 * (3^3 * (109 * 29047611873442575647497758179)) := by norm_num
    rw [hfact] at hdvd
    rcases (Nat.Prime.dvd_mul hr).mp hdvd with h | h
    · have := (Nat.prime_dvd_prime_iff_eq hr h2).mp (Nat.Prime.dvd_of_dvd_pow hr h)
      simp [this]
    rcases (Nat.Prime.dvd_mul hr).mp h with h | h
    · have := (Nat.prime_dvd_prime_iff_eq hr h3).mp (Nat.Prime.dvd_of_dvd_pow hr h)
      simp [this]
    rcases (Nat.Prime.dvd_mul hr).mp h with h | h
    · have := (Nat.prime_dvd_prime_iff_eq hr h109).mp h
      simp [this]
    · have := (Nat.prime_dvd_prime_iff_eq hr hbig).mp h
      simp [this]
  · intro r hrL
    fin_cases hrL <;> decide

/-- The secp256k1 group order is prime. -/
theorem qOrder_prime : Nat.Prime qOrder := by
  have h2 : Nat.Prime 2 := Nat.prime_two
  have h3 : Nat.Prime 3 := Nat.prime_three
  have h149 : Nat.Prime 149 := by norm_num
  have h631 : Nat.Prime 631 := by norm_num
  have hfa : Nat.Prime 107361793816595537 := prime_107361793816595537
  have hfb : Nat.Prime 174723607534414371449 := prime_174723607534414371449
  have hfd : Nat.Prime 341948486974166000522343609283189 :=
    prime_341948486974166000522343609283189
  apply lucas_cert qOrder 7 [2, 3, 149, 631, 107361793816595537, 174723607534414371449,
    341948486974166000522343609283189]
  · decide
  · decide
  · decide
  · intro r hr hdvd
    have hfact : (qOrder - 1 : Nat) = 2^6 * (3 * (149 * (631 * (107361793816595537 *
        (174723607534414371449 * 341948486974166000522343609283189))))) := by decide
    rw [hfact] at hdvd
    rcases (Nat.Prime.dvd_mul hr).mp hdvd with h | h
    · have := (Nat.prime_dvd_prime_iff_eq hr h2).mp (Nat.Prime.dvd_of_dvd_pow hr h)
      simp [this]
    rcases (Nat.Prime.dvd_mul hr).mp h with h | h
    · have := (Nat.prime_dvd_prime_iff_eq hr h3).mp h
      simp [this]
    rcases (Nat.Prime.dvd_mul hr).mp h with h | h
    · have := (Nat.prime_dvd_prime_iff_eq hr h149).mp h
      simp [this]
    rcases (Nat.Prime.dvd_mul hr).mp h with h | h
    · have := (Nat.prime_dvd_prime_iff_eq hr h631).mp h
      simp [this]
    rcases (Nat.Prime.dvd_mul hr).mp h with h | h
    · have := (Nat.prime_dvd_prime_iff_eq hr hfa).mp h
      simp [this]
    rcases (Nat.Prime.dvd_mul hr).mp h with h | h
    · have := (Nat.prime_dvd_prime_iff_eq hr hfb).mp h
      simp [this]
    · have := (Nat.prime_dvd_prime_iff_eq hr hfd).mp h
      simp [this]
  · intro r hrL
    fin_cases hrL <;> decide

instance : Fact (Nat.Prime qOrder) := ⟨qOrder_prime⟩

/-!
The point group

`k256::ProjectivePoint` is the secp256k1 group: cyclic of prime order
`qOrder`, generated by `G`.  It is embedded through the group
isomorphism `k ↦ k·G`, i.e. a point is represented by its discrete
logarithm: `GENERATOR = 1`, point addition is addition in
`ZMod qOrder`, and scalar multiplication `P * s` is multiplication.
-/

/-- Embedding of `k256::ProjectivePoint`, represented by its exponent with respect
to `GENERATOR` (the group is cyclic of prime order `qOrder`). -/
abbrev Point : Type := ZMod qOrder

/-- Embedding of `ProjectivePoint::GENERATOR`. -/
def GENERATOR : Point := 1

/-- Embedding of `ProjectivePoint::IDENTITY`. -/
def IDENTITY : Point := 0

/-- Fiat-Shamir challenge functions `(R, X, msg) ↦ c`.  The crate's
`compute_challenge` (SHA-256 over the SEC1 encodings of `R` and `X`
followed by `msg`) is one such function; the signing/verification
theorems below hold for every deterministic challenge function, hence
in particular for the crate's. -/
abbrev ChalFun : Type := Point → Point → List Nat → Scalar

/-!
`src/threshold.rs`
-/

/-- Embedding of `threshold.rs`: a participant (id, secret share, public share). -/
structure Participant where
  id : Nat
  x_i : Scalar
  X_i : Point
deriving DecidableEq

/-- Embedding of `Participant::from_secret`. -/
def Participant.from_secret (id : Nat) (x_i : Scalar) : Participant :=
  { id := id, x_i := x_i, X_i := GENERATOR * x_i }

/-- Embedding of `threshold.rs`: a partial signature. -/
structure PartialSignature where
  id : Nat
  s_i : Scalar
deriving DecidableEq

/-- Embedding of `schnorr.rs`: a full Schnorr signature. -/
structure SchnorrSignature where
  R : Point
  s : Scalar
deriving DecidableEq

/-- Embedding of `schnorr.rs`: `compute_nonce_point`, `R = r*G`. -/
def compute_nonce_point (r : Scalar) : Point := GENERATOR * r

/-- Embedding of `SchnorrSignature::verify` (schnorr.rs): recompute
`c = compute_challenge(R, X, msg)` and check `G·s = R + X·c`.
Parametrised by the challenge function `chal`. -/
def SchnorrSignature.verify (chal : ChalFun) (sig : SchnorrSignature) (msg : List Nat)
    (X : Point) : Bool :=
  let c := chal sig.R X msg
  let lhs := GENERATOR * sig.s
  let rhs := sig.R + X * c
  decide (lhs = rhs)

/-- The two running products of `lagrange_coefficient`'s loop
(threshold.rs lines 69-79): the numerator `Π_{j ≠ i} id_j` and the
denominator `Π_{j ≠ i} (id_j - id_i)`, where entries equal to `id_i`
are skipped by the `if id_j == id_i { continue; }` test. -/
def lagrangeNumDen (id_i : Nat) (ids : List Nat) : Scalar × Scalar :=
  ids.foldl (fun nd id_j =>
    if id_j = id_i then nd
    else (nd.1 * (id_j : Scalar), nd.2 * ((id_j : Scalar) - (id_i : Scalar)))) (1, 1)

/-- Embedding of `k256::Scalar::invert`: a `CtOption` that is `None` exactly on the
zero scalar (every nonzero element of the prime field is invertible). -/
def invert (s : Scalar) : Option Scalar := if s = 0 then none else some s⁻¹

/-- Embedding of `threshold.rs`: `lagrange_coefficient`.  The source computes
`num * den.invert().unwrap()`; the `.unwrap()` panic on a zero
denominator is modelled as `Option.none`. -/
def lagrange_coefficient (id_i : Nat) (ids : List Nat) : Option Scalar :=
  let nd := lagrangeNumDen id_i ids
  (invert nd.2).map (fun dinv => nd.1 * dinv)

/-- Embedding of `threshold.rs`: `aggregate_public_key`; `X = Σ λᵢ·Xᵢ` over the
id-set taken from the supplied pairs themselves.  A panic inside
`lagrange_coefficient` propagates as `none`. -/
def aggregate_public_key (public_keys : List (Nat × Point)) : Option Point :=
  let ids := public_keys.map Prod.fst
  public_keys.foldlM (fun acc pk =>
    (lagrange_coefficient pk.1 ids).map (fun lambda => acc + pk.2 * lambda)) IDENTITY

/-- Embedding of `threshold.rs`: `aggregate_nonce`; `R = Σ λᵢ·Rᵢ` with Lagrange
weights computed over the separately supplied `ids`. -/
def aggregate_nonce (nonces : List (Nat × Point)) (ids : List Nat) : Option Point :=
  nonces.foldlM (fun acc nc =>
    (lagrange_coefficient nc.1 ids).map (fun lambda => acc + nc.2 * lambda)) IDENTITY

/-- Embedding of `threshold.rs`: `partial_sign`, `s_i = r_i + x_i·c`. -/
def partial_sign (participant : Participant) (r_i c : Scalar) : PartialSignature :=
  { id := participant.id, s_i := r_i + participant.x_i * c }

/-- Embedding of `threshold.rs`: `finalize_signature_lagrange`; `s = Σ λᵢ·sᵢ` over
the id-set of the partials themselves, paired with the supplied `R`. -/
def finalize_signature_lagrange (partials : List PartialSignature) (R : Point) :
    Option SchnorrSignature :=
  let ids := partials.map PartialSignature.id
  (partials.foldlM (fun s p =>
    (lagrange_coefficient p.id ids).map (fun lambda => s + lambda * p.s_i)) 0).map
    (fun s => { R := R, s := s })

/-!
`src/shamir.rs`

`Scalar::random(&mut OsRng)` draws are passed in explicitly: `secret`
is the dealer's random secret and `rand` the list of `t - 1` random
higher coefficients.
-/

/-- Embedding of `shamir.rs`: `random_polynomial`; coefficient 0 is the secret,
the remaining `t - 1` coefficients are the random draws `rand`. -/
def random_polynomial (secret : Scalar) (rand : List Scalar) : List Scalar :=
  secret :: rand

/-- Embedding of `shamir.rs`: `eval_polynomial`, Horner evaluation at
`x = Scalar::from(id)` iterating the coefficients in reverse. -/
def eval_polynomial (coeffs : List Scalar) (id : Nat) : Scalar :=
  coeffs.reverse.foldl (fun acc c => acc * (id : Scalar) + c) 0

/-- Embedding of `vss.rs`: `calculate_commitment`, `C = G·c`. -/
def calculate_commitment (c : Scalar) : Point := GENERATOR * c

/-- Embedding of `shamir.rs`: the `KeygenOutput` struct. -/
structure KeygenOutput where
  participants : List Participant
  public_key : Point
  commitments : List Point
deriving DecidableEq

/-- Embedding of `shamir.rs`: `shamir_keygen`.  The source begins with
`assert!(t >= 2 && t <= n)`; the assertion failure (a Rust panic, not
a catchable error - the function's return type is plain
`KeygenOutput`) is modelled as `Option.none`. -/
def shamir_keygen (n t : Nat) (secret : Scalar) (rand : List Scalar) : Option KeygenOutput :=
  if 2 ≤ t ∧ t ≤ n then
    let poly := random_polynomial secret rand
    let public_key := GENERATOR * secret
    let commitments := poly.map calculate_commitment
    let participants := (List.range n).map (fun k =>
      let id := k + 1
      let x_i := eval_polynomial poly id
      { id := id, x_i := x_i, X_i := GENERATOR * x_i : Participant })
    some { participants := participants, public_key := public_key,
           commitments := commitments }
  else none

/-!
`src/vss.rs`
-/

/-- Embedding of `vss.rs`: `verify_share`; `lhs = G·x_i`,
`rhs = Σ_j commitments[j]·id^j` with the powers of `id` accumulated
iteratively, returning the boolean `lhs == rhs`. -/
def verify_share (id : Nat) (x_i : Scalar) (commitments : List Point) : Bool :=
  let lhs := GENERATOR * x_i
  let rhs := (commitments.foldl (fun acc C_j =>
      (acc.1 + C_j * acc.2, acc.2 * (id : Scalar))) ((IDENTITY : Point), (1 : Scalar))).1
  decide (lhs = rhs)

/-!
`src/lib.rs`: the duplicated crate-root API

`lib.rs` re-declares `Participant`, `PartialSignature` and
`SchnorrSignature` with exactly the same fields as the module-scoped
structs, and re-implements the aggregation/signing functions.  The
structs are structurally identical, so the embedding reuses the types
above and re-transcribes the six crate-root functions (lib.rs lines
104-230) in namespace `Lib`.
-/

namespace Lib

/-- Embedding of `lib.rs`: `SchnorrSignature::verify` (lines 106-113). -/
def verify (chal : ChalFun) (sig : SchnorrSignature) (msg : List Nat) (X : Point) : Bool :=
  let c := chal sig.R X msg
  let lhs := GENERATOR * sig.s
  let rhs := sig.R + X * c
  decide (lhs = rhs)

/-- Embedding of `lib.rs`: the running products of `lagrange_coefficient`'s loop
(lines 189-196). -/
def lagrangeNumDen (id_i : Nat) (ids : List Nat) : Scalar × Scalar :=
  ids.foldl (fun nd id_j =>
    if id_j = id_i then nd
    else (nd.1 * (id_j : Scalar), nd.2 * ((id_j : Scalar) - (id_i : Scalar)))) (1, 1)

/-- Embedding of `lib.rs`: `lagrange_coefficient` (lines 184-199). -/
def lagrange_coefficient (id_i : Nat) (ids : List Nat) : Option Scalar :=
  let nd := Lib.lagrangeNumDen id_i ids
  (invert nd.2).map (fun dinv => nd.1 * dinv)

/-- Embedding of `lib.rs`: `aggregate_public_key` (lines 129-137). -/
def aggregate_public_key (public_keys : List (Nat × Point)) : Option Point :=
  let ids := public_keys.map Prod.fst
  public_keys.foldlM (fun acc pk =>
    (Lib.lagrange_coefficient pk.1 ids).map (fun lambda => acc + pk.2 * lambda)) IDENTITY

/-- Embedding of `lib.rs`: `aggregate_nonce` (lines 139-146). -/
def aggregate_nonce (nonces : List (Nat × Point)) (ids : List Nat) : Option Point :=
  nonces.foldlM (fun acc nc =>
    (Lib.lagrange_coefficient nc.1 ids).map (fun lambda => acc + nc.2 * lambda)) IDENTITY

/-- Embedding of `lib.rs`: `partial_sign` (lines 205-210); takes its scalar
arguments by value rather than by reference, otherwise identical. -/
def partial_sign (participant : Participant) (r_i c : Scalar) : PartialSignature :=
  { id := participant.id, s_i := r_i + participant.x_i * c }

/-- Embedding of `lib.rs`: `finalize_signature_lagrange` (lines 217-230). -/
def finalize_signature_lagrange (partials : List PartialSignature) (R : Point) :
    Option SchnorrSignature :=
  let ids := partials.map PartialSignature.id
  (partials.foldlM (fun s p =>
    (Lib.lagrange_coefficient p.id ids).map (fun lambda => s + lambda * p.s_i)) 0).map
    (fun s => { R := R, s := s })

end Lib

/-!
`src/util.rs`: hex encodings

Bytes are `Nat`s below 256; hex strings are `List Char`.  The `hex`
crate's `Vec::from_hex` accepts an even number of upper- or lower-case
hex digits and fails otherwise; `hex::encode` emits lower-case digits.
The fallible decoders return `Except String` exactly like the source's
`Result<_, String>`; there is no panicking path in `util.rs`.
-/

/-- Value of one hex digit (upper or lower case). -/
def hexVal (c : Char) : Option Nat :=
  if '0' ≤ c ∧ c ≤ '9' then some (c.toNat - '0'.toNat)
  else if 'a' ≤ c ∧ c ≤ 'f' then some (c.toNat - 'a'.toNat + 10)
  else if 'A' ≤ c ∧ c ≤ 'F' then some (c.toNat - 'A'.toNat + 10)
  else none

/-- Embedding of `hex::FromHex`: decode an even-length string of hex digits into
bytes; `none` on an odd length or a non-hex character. -/
def hexDecode : List Char → Option (List Nat)
  | [] => some []
  | [_] => none
  | c1 :: c2 :: rest => do
      let hi ← hexVal c1
      let lo ← hexVal c2
      let bs ← hexDecode rest
      pure ((hi * 16 + lo) :: bs)

/-- Lower-case hex digit for a value below 16. -/
def hexDigit (n : Nat) : Char :=
  if n < 10 then Char.ofNat ('0'.toNat + n) else Char.ofNat ('a'.toNat + n - 10)

/-- Embedding of `hex::encode`: two lower-case digits per byte. -/
def hexEncode : List Nat → List Char
  | [] => []
  | b :: bs => hexDigit (b / 16) :: hexDigit (b % 16) :: hexEncode bs

/-- Big-endian bytes of `x`, `k` bytes wide (`k256` field element
`to_bytes`). -/
def natToBytesBE : Nat → Nat → List Nat
  | 0, _ => []
  | k+1, x => natToBytesBE k (x / 256) ++ [x % 256]

/-- Big-endian bytes to a natural number. -/
def bytesToNatBE (bs : List Nat) : Nat := bs.foldl (fun acc b => acc * 256 + b) 0

/-- Embedding of `util.rs`: `scalar_to_hex`; hex of the 32-byte big-endian
canonical representation of the scalar. -/
def scalar_to_hex (s : Scalar) : List Char := hexEncode (natToBytesBE 32 s.val)

/-- Embedding of `util.rs`: `hex_to_scalar`; hex-decode, check the 32-byte length,
then `Scalar::from_repr`, which accepts exactly the big-endian
representations of values below the group order. -/
def hex_to_scalar (h : List Char) : Except String Scalar :=
  match hexDecode h with
  | none => Except.error ("Invalid hex string")
  | some raw =>
    if raw.length ≠ 32 then Except.error ("Invalid scalar length")
    else
      let x := bytesToNatBE raw
      if x < qOrder then Except.ok ((x : Scalar)) else Except.error ("Invalid scalar")

/-- The secp256k1 base field prime `p = 2^256 - 2^32 - 977`
(coordinate field of the curve `y^2 = x^3 + 7`). -/
def pBase : Nat :=
  115792089237316195423570985008687907853269984665640564039457584007908834671663

/-- Byte-level view of a `k256` point for serialization claims: `none`
is the identity, `some ⟨x, y⟩` an affine point with coordinates given
as canonical naturals below `pBase`.  (The group structure is not
needed for serialization; the group-law view is `Point` above.) -/
structure AffineCoords where
  x : Nat
  y : Nat
deriving DecidableEq

/-- The SEC1 curve-equation and canonicity check `y^2 = x^3 + 7` used
by `AffinePoint::from_encoded_point` on uncompressed input. -/
def onCurve (A : AffineCoords) : Prop :=
  A.x < pBase ∧ A.y < pBase ∧ (A.y * A.y) % pBase = (A.x * A.x * A.x + 7) % pBase

instance (A : AffineCoords) : Decidable (onCurve A) := by
  unfold onCurve; infer_instance

/-- Embedding of `util.rs`: `pp_to_hex` byte stage: `to_affine` followed by
`EncodedPoint::from(affine)`, which emits the SEC1 uncompressed form
`04 || x || y` (or the single byte `00` for the identity). -/
def pp_to_bytes (P : Option AffineCoords) : List Nat :=
  match P with
  | none => [0]
  | some A => 4 :: (natToBytesBE 32 A.x ++ natToBytesBE 32 A.y)

/-- Embedding of `util.rs`: `pp_to_hex`. -/
def pp_to_hex (P : Option AffineCoords) : List Char := hexEncode (pp_to_bytes P)

/-- Embedding of `EncodedPoint::from_bytes` followed by
`AffinePoint::from_encoded_point`: accepts the identity encoding
`[00]`, a compressed point `02/03 || x` (decompressed by the square
root `r^((p+1)/4)` and a parity-adjusted negation, rejected when the
root check fails), a compact point `05 || x` (the `sec1` crate's
`Tag::Compact`, decoded by k256's `DecompactPoint` instance, i.e.
decompression selecting the even-`y` root), and an uncompressed point
`04 || x || y` validated against the curve equation; everything else
is rejected. -/
def point_from_bytes (raw : List Nat) : Except String (Option AffineCoords) :=
  if raw = [0] then Except.ok none
  else match raw with
  | tag :: rest =>
    if (tag = 2 ∨ tag = 3) ∧ rest.length = 32 then
      let x := bytesToNatBE rest
      if x < pBase then
        let rhs := (x * x * x + 7) % pBase
        let cand := powModF 256 rhs ((pBase + 1) / 4) pBase
        if cand * cand % pBase = rhs then
          let y := if cand % 2 = tag - 2 then cand else (pBase - cand) % pBase
          Except.ok (some { x := x, y := y })
        else Except.error ("Invalid affine point")
      else Except.error ("Invalid affine point")
    else if tag = 5 ∧ rest.length = 32 then
      let x := bytesToNatBE rest
      if x < pBase then
        let rhs := (x * x * x + 7) % pBase
        let cand := powModF 256 rhs ((pBase + 1) / 4) pBase
        if cand * cand % pBase = rhs then
          let y := if cand % 2 = 0 then cand else (pBase - cand) % pBase
          Except.ok (some { x := x, y := y })
        else Except.error ("Invalid affine point")
      else Except.error ("Invalid affine point")
    else if tag = 4 ∧ rest.length = 64 then
      let x := bytesToNatBE (rest.take 32)
      let y := bytesToNatBE (rest.drop 32)
      if x < pBase ∧ y < pBase ∧ (y * y) % pBase = (x * x * x + 7) % pBase then
        Except.ok (some { x := x, y := y })
      else Except.error ("Invalid affine point")
    else Except.error ("Invalid encoded point")
  | [] => Except.error ("Invalid encoded point")

/-- Embedding of `util.rs`: `hex_to_pp`. -/
def hex_to_pp (h : List Char) : Except String (Option AffineCoords) :=
  match hexDecode h with
  | none => Except.error ("Invalid hex string")
  | some raw => point_from_bytes raw

/-!
Lagrange coefficient lemmas

`lambda0` is the value `num * den⁻¹` that `lagrange_coefficient`
returns whenever the denominator is nonzero.  For `u64` ids the
denominator is always nonzero (distinct `u64`s stay distinct modulo
`qOrder`, and entries equal to `id_i` are skipped), so the crate's
`.unwrap()` never panics.
-/

/-- The value computed by `lagrange_coefficient` on the non-panicking
path. -/
def lambda0 (id_i : Nat) (ids : List Nat) : Scalar :=
  (lagrangeNumDen id_i ids).1 * ((lagrangeNumDen id_i ids).2)⁻¹

theorem lagrangeNumDen_eq (id_i : Nat) (ids : List Nat) :
    lagrangeNumDen id_i ids =
      (((ids.filter (fun j => j ≠ id_i)).map (fun j => (Nat.cast j : Scalar))).prod,
       ((ids.filter (fun j => j ≠ id_i)).map
         (fun j => (Nat.cast j - Nat.cast id_i : Scalar))).prod) := by
  suffices h : ∀ (l : List Nat) (nd : Scalar × Scalar),
      l.foldl (fun nd id_j =>
        if id_j = id_i then nd
        else (nd.1 * (id_j : Scalar), nd.2 * ((id_j : Scalar) - (id_i : Scalar)))) nd =
      (nd.1 * ((l.filter (fun j => j ≠ id_i)).map (fun j => (Nat.cast j : Scalar))).prod,
       nd.2 * ((l.filter (fun j => j ≠ id_i)).map
         (fun j => (Nat.cast j - Nat.cast id_i : Scalar))).prod) by
    have := h ids (1, 1)
    simpa [lagrangeNumDen] using this
  intro l
  induction l with
  | nil => intro nd; simp
  | cons j l ih =>
    intro nd
    by_cases hj : j = id_i
    · simp only [List.foldl_cons, hj, if_true, List.filter_cons]
      simp [ih]
    · simp only [List.foldl_cons, if_neg hj, List.filter_cons]
      rw [ih]
      simp only [hj, decide_not, decide_eq_true_eq]
      simp [hj, mul_assoc]

theorem lagrangeDen_ne_zero (id_i : Nat) (ids : List Nat)
    (hi : id_i < qOrder) (hids : ∀ j ∈ ids, j < qOrder) :
    (lagrangeNumDen id_i ids).2 ≠ 0 := by
  rw [lagrangeNumDen_eq]
  intro h0
  rw [List.prod_eq_zero_iff] at h0
  simp only [List.mem_map, List.mem_filter, decide_eq_true_eq, decide_not,
    Bool.not_eq_true', decide_eq_false_iff_not] at h0
  obtain ⟨j, ⟨hjl, hjne⟩, hj0⟩ := h0
  apply hjne
  have hcast : (j : Scalar) = (id_i : Scalar) := sub_eq_zero.mp hj0
  have hv := congrArg ZMod.val hcast
  rwa [ZMod.val_cast_of_lt (hids j hjl), ZMod.val_cast_of_lt hi] at hv

theorem lagrange_coefficient_eq_some (id_i : Nat) (ids : List Nat)
    (hi : id_i < qOrder) (hids : ∀ j ∈ ids, j < qOrder) :
    lagrange_coefficient id_i ids = some (lambda0 id_i ids) := by
  have hden := lagrangeDen_ne_zero id_i ids hi hids
  simp [lagrange_coefficient, invert, hden, lambda0]

/-!
Polynomial bridge

`polyOf coeffs` is the Mathlib polynomial with coefficient list
`coeffs` (index = degree); `eval_polynomial` is its Horner evaluation.
-/

/-- The polynomial `Σ coeffs[k]·X^k` determined by a coefficient list
(a proof-side mathematical object, not part of the embedded code). -/
noncomputable def polyOf (coeffs : List Scalar) : Polynomial Scalar :=
  coeffs.foldr (fun c p => Polynomial.C c + Polynomial.X * p) 0

theorem horner_eval (coeffs : List Scalar) (x : Scalar) :
    coeffs.reverse.foldl (fun acc c => acc * x + c) 0 = (polyOf coeffs).eval x := by
  induction coeffs with
  | nil => simp [polyOf]
  | cons c cs ih =>
    rw [List.reverse_cons, List.foldl_append]
    simp only [List.foldl_cons, List.foldl_nil]
    rw [ih]
    simp only [polyOf, List.foldr_cons, Polynomial.eval_add, Polynomial.eval_C,
      Polynomial.eval_mul, Polynomial.eval_X]
    ring

theorem eval_polynomial_eq (coeffs : List Scalar) (id : Nat) :
    eval_polynomial coeffs id = (polyOf coeffs).eval ((id : Scalar)) :=
  horner_eval coeffs ((id : Scalar))

theorem degree_polyOf_lt (coeffs : List Scalar) :
    (polyOf coeffs).degree < ((coeffs.length : Nat) : WithBot Nat) := by
  induction coeffs with
  | nil =>
    simp only [polyOf, List.foldr_nil, Polynomial.degree_zero, List.length_nil]
    exact WithBot.bot_lt_coe 0
  | cons c cs ih =>
    simp only [polyOf, List.foldr_cons, List.length_cons]
    apply lt_of_le_of_lt (Polynomial.degree_add_le _ _)
    apply max_lt
    · apply lt_of_le_of_lt Polynomial.degree_C_le
      exact_mod_cast WithBot.coe_lt_coe.mpr (Nat.succ_pos _)
    · apply lt_of_le_of_lt (Polynomial.degree_mul_le _ _)
      apply lt_of_le_of_lt (add_le_add_right Polynomial.degree_X_le _)
      have hcast : ((cs.length + 1 : Nat) : WithBot Nat) = 1 + ((cs.length : Nat) : WithBot Nat) := by
        push_cast
        ring
      rw [hcast]
      exact WithBot.add_lt_add_left (by decide) ih

theorem polyOf_eval_zero (coeffs : List Scalar) :
    (polyOf coeffs).eval 0 = coeffs.headD 0 := by
  cases coeffs <;> simp [polyOf]

/-!
List-fold helpers
-/

theorem foldlM_option_eq_foldl {α β : Type} (f : β → α → Option β) (g : β → α → β)
    (l : List α) (h : ∀ b : β, ∀ a ∈ l, f b a = some (g b a)) :
    ∀ b0 : β, l.foldlM f b0 = some (l.foldl g b0) := by
  induction l with
  | nil => intro b0; rfl
  | cons a l ih =>
    intro b0
    have hstep := h b0 a (List.mem_cons_self a l)
    simp only [List.foldlM_cons, hstep, Option.bind_eq_bind, Option.some_bind,
      List.foldl_cons]
    exact ih (fun b x hx => h b x (List.mem_cons_of_mem a hx)) (g b0 a)

theorem foldl_add_map_sum {M : Type} [AddCommMonoid M] {α : Type} (f : α → M) (l : List α) :
    ∀ init : M, l.foldl (fun acc x => acc + f x) init = init + (l.map f).sum := by
  induction l with
  | nil => intro init; simp
  | cons a l ih =>
    intro init
    simp only [List.foldl_cons, List.map_cons, List.sum_cons, ih (init + f a)]
    rw [add_assoc]

/-!
The Lagrange interpolation bridge

The value `lambda0 i ids` computed by the crate equals the evaluation
at zero of the Mathlib Lagrange basis polynomial for node `i`, and the
`λ`-weighted sum of polynomial evaluations therefore reconstructs the
constant term.
-/

theorem lambda0_eq_basis_eval (ids : List Nat) (i : Nat) (hnd : ids.Nodup) :
    lambda0 i ids =
      (Lagrange.basis ids.toFinset (fun j : Nat => (Nat.cast j : Scalar)) i).eval 0 := by
  classical
  have hfn : (ids.filter (fun j => j ≠ i)).toFinset = ids.toFinset.erase i := by
    rw [List.toFinset_filter]
    ext a
    simp only [Finset.mem_filter, Finset.mem_erase, decide_eq_true_eq]
    tauto
  have hnum : ((ids.filter (fun j => j ≠ i)).map (fun j => (Nat.cast j : Scalar))).prod
      = ∏ j ∈ ids.toFinset.erase i, (Nat.cast j : Scalar) := by
    rw [← hfn, List.prod_toFinset _ (hnd.filter _)]
  have hden : ((ids.filter (fun j => j ≠ i)).map
        (fun j => (Nat.cast j - Nat.cast i : Scalar))).prod
      = ∏ j ∈ ids.toFinset.erase i, (Nat.cast j - Nat.cast i : Scalar) := by
    rw [← hfn, List.prod_toFinset _ (hnd.filter _)]
  rw [lambda0, lagrangeNumDen_eq]
  dsimp only
  rw [hnum, hden, Lagrange.basis, Polynomial.eval_prod, ← Finset.prod_inv_distrib,
    ← Finset.prod_mul_distrib]
  apply Finset.prod_congr rfl
  intro j hj
  rw [Lagrange.basisDivisor]
  simp only [Polynomial.eval_mul, Polynomial.eval_C, Polynomial.eval_sub, Polynomial.eval_X]
  rw [zero_sub, mul_neg, ← neg_mul, ← inv_neg, neg_sub, mul_comm]

theorem lagrange_reconstruct (coeffs : List Scalar) (ids : List Nat)
    (hnd : ids.Nodup) (hb : ∀ j ∈ ids, j < qOrder)
    (hlen : coeffs.length ≤ ids.length) :
    (ids.map (fun i => lambda0 i ids * eval_polynomial coeffs i)).sum
      = eval_polynomial coeffs 0 := by
  classical
  have hinj : Set.InjOn (fun j : Nat => (Nat.cast j : Scalar)) ids.toFinset := by
    intro a ha b hb' hab
    have ha2 : a < qOrder := hb a (List.mem_toFinset.mp ha)
    have hb2 : b < qOrder := hb b (List.mem_toFinset.mp hb')
    have hv := congrArg ZMod.val hab
    dsimp only at hv
    rwa [ZMod.val_cast_of_lt ha2, ZMod.val_cast_of_lt hb2] at hv
  have hdeg : (polyOf coeffs).degree < (ids.toFinset.card : WithBot Nat) := by
    rw [List.toFinset_card_of_nodup hnd]
    exact lt_of_lt_of_le (degree_polyOf_lt coeffs) (by exact_mod_cast hlen)
  have hinterp := Lagrange.eq_interpolate hinj hdeg
  have heval := congrArg (Polynomial.eval (0 : Scalar)) hinterp
  rw [Lagrange.interpolate_apply, Polynomial.eval_finset_sum] at heval
  have hlist : (ids.map (fun i => lambda0 i ids * eval_polynomial coeffs i)).sum
      = ∑ i ∈ ids.toFinset, (lambda0 i ids * eval_polynomial coeffs i) := by
    rw [List.sum_toFinset _ hnd]
  rw [hlist]
  have hterm : ∀ i ∈ ids.toFinset,
      lambda0 i ids * eval_polynomial coeffs i =
      (Polynomial.C ((polyOf coeffs).eval ((fun j : Nat => (Nat.cast j : Scalar)) i)) *
        Lagrange.basis ids.toFinset (fun j : Nat => (Nat.cast j : Scalar)) i).eval 0 := by
    intro i hi
    rw [Polynomial.eval_mul, Polynomial.eval_C, lambda0_eq_basis_eval ids i hnd,
      eval_polynomial_eq]
    dsimp only
    ring
  rw [Finset.sum_congr rfl hterm, ← heval, eval_polynomial_eq]
  simp

/-!
Aggregator unfolding lemmas

Under the `u64` id bounds the `lagrange_coefficient` option is always
`some`, so the monadic folds of the aggregators reduce to plain
`λ`-weighted sums.
-/

theorem aggregate_nonce_eq_sum (nonces : List (Nat × Point)) (ids : List Nat)
    (hids : ∀ j ∈ ids, j < qOrder) (hn : ∀ p ∈ nonces, p.1 < qOrder) :
    aggregate_nonce nonces ids =
      some ((nonces.map (fun nc => nc.2 * lambda0 nc.1 ids)).sum) := by
  unfold aggregate_nonce
  rw [foldlM_option_eq_foldl _ (fun acc nc => acc + nc.2 * lambda0 nc.1 ids) _
    (fun b a ha => by rw [lagrange_coefficient_eq_some a.1 ids (hn a ha) hids]; rfl)]
  rw [foldl_add_map_sum]
  simp [IDENTITY]

theorem finalize_signature_eq_sum (partials : List PartialSignature) (R : Point)
    (hp : ∀ p ∈ partials, p.id < qOrder) :
    finalize_signature_lagrange partials R =
      some { R := R,
             s := (partials.map (fun p =>
               lambda0 p.id (partials.map PartialSignature.id) * p.s_i)).sum } := by
  unfold finalize_signature_lagrange
  dsimp only
  have hids : ∀ j ∈ partials.map PartialSignature.id, j < qOrder := by
    intro j hj
    rcases List.mem_map.mp hj with ⟨p, hpmem, rfl⟩
    exact hp p hpmem
  rw [foldlM_option_eq_foldl _
    (fun s p => s + lambda0 p.id (partials.map PartialSignature.id) * p.s_i) _
    (fun b a ha => by rw [lagrange_coefficient_eq_some a.id _ (hp a ha) hids]; rfl)]
  rw [Option.map_some', foldl_add_map_sum, zero_add]

/-!
Keygen structure lemmas
-/

theorem shamir_keygen_eq (n t : Nat) (secret : Scalar) (rand : List Scalar)
    (out : KeygenOutput) (hout : shamir_keygen n t secret rand = some out) :
    (2 ≤ t ∧ t ≤ n) ∧
    out.participants = (List.range n).map (fun k =>
      { id := k + 1,
        x_i := eval_polynomial (random_polynomial secret rand) (k + 1),
        X_i := GENERATOR * eval_polynomial (random_polynomial secret rand) (k + 1) }) ∧
    out.public_key = GENERATOR * secret ∧
    out.commitments = (random_polynomial secret rand).map calculate_commitment := by
  unfold shamir_keygen at hout
  by_cases hcond : 2 ≤ t ∧ t ≤ n
  · rw [if_pos hcond] at hout
    refine ⟨hcond, ?_, ?_, ?_⟩ <;> rw [← Option.some_inj.mp hout]
  · rw [if_neg hcond] at hout
    exact absurd hout (by simp)

theorem keygen_participant_mem (n t : Nat) (secret : Scalar) (rand : List Scalar)
    (out : KeygenOutput) (hout : shamir_keygen n t secret rand = some out)
    (p : Participant) (hp : p ∈ out.participants) :
    1 ≤ p.id ∧ p.id ≤ n ∧
    p = { id := p.id,
          x_i := eval_polynomial (random_polynomial secret rand) p.id,
          X_i := GENERATOR * eval_polynomial (random_polynomial secret rand) p.id } := by
  obtain ⟨-, hparts, -, -⟩ := shamir_keygen_eq n t secret rand out hout
  rw [hparts] at hp
  rcases List.mem_map.mp hp with ⟨k, hk, rfl⟩
  have hkn : k < n := List.mem_range.mp hk
  exact ⟨Nat.succ_le_succ (Nat.zero_le k), hkn, rfl⟩

/-!
VSS unfolding lemmas

In the exponent model `calculate_commitment` is the identity on the
underlying `ZMod qOrder` value, so the committed list evaluates like
the coefficient list itself.
-/

theorem verify_share_fold (comms : List Point) (x : Scalar) :
    ∀ (P : Point) (a : Scalar),
      (comms.foldl (fun acc C_j => (acc.1 + C_j * acc.2, acc.2 * x)) (P, a)).1 =
        P + (polyOf comms).eval x * a := by
  induction comms with
  | nil => intro P a; simp [polyOf]
  | cons C cs ih =>
    intro P a
    simp only [List.foldl_cons, ih, polyOf, List.foldr_cons, Polynomial.eval_add,
      Polynomial.eval_C, Polynomial.eval_mul, Polynomial.eval_X]
    ring

theorem verify_share_eq (id : Nat) (x : Scalar) (comms : List Point) :
    verify_share id x comms =
      decide (GENERATOR * x = (polyOf comms).eval (Nat.cast id)) := by
  unfold verify_share
  rw [verify_share_fold comms (Nat.cast id) IDENTITY 1]
  simp only [IDENTITY, zero_add, mul_one]

/-- In the exponent model a Feldman commitment carries exactly the
committed coefficient, so committing a whole coefficient list is the
identity on the list. -/
theorem map_calculate_commitment (l : List Scalar) : l.map calculate_commitment = l := by
  have h : calculate_commitment = fun c : Scalar => c := by
    funext c
    simp [calculate_commitment, GENERATOR]
  rw [h, List.map_id']

theorem polyOf_set_eval (comms : List Scalar) (C' x : Scalar) :
    ∀ (j : Nat), j < comms.length →
      (polyOf (comms.set j C')).eval x =
        (polyOf comms).eval x + (C' - comms.getD j 0) * x^j := by
  induction comms with
  | nil => intro j hj; simp at hj
  | cons c cs ih =>
    intro j hj
    cases j with
    | zero =>
      simp only [List.set_cons_zero, polyOf, List.foldr_cons, Polynomial.eval_add,
        Polynomial.eval_C, Polynomial.eval_mul, Polynomial.eval_X, List.getD_cons_zero,
        pow_zero]
      ring
    | succ j' =>
      have hj' : j' < cs.length := by simpa using hj
      simp only [List.set_cons_succ, polyOf, List.foldr_cons, Polynomial.eval_add,
        Polynomial.eval_C, Polynomial.eval_mul, Polynomial.eval_X, List.getD_cons_succ]
      have hise := ih j' hj'
      simp only [polyOf] at hise
      rw [hise]
      rw [pow_succ]
      ring

theorem sum_map_affine {α : Type} (l : List α) (a b : α → Scalar) (c : Scalar) :
    (l.map (fun i => a i + b i * c)).sum = (l.map a).sum + (l.map b).sum * c := by
  induction l with
  | nil => simp
  | cons x l ih =>
    simp only [List.map_cons, List.sum_cons, ih]
    ring

/-!
Claim theorems

One theorem per claim of the specification audit (witnesses and
counterexamples alongside).
-/

/-- C2: single-party Schnorr correctness.  For every secret `x`, nonce
`r`, message, participant id and challenge function: with `X = G·x`,
`R = G·r`, `c = chal R X msg` and `s = r + c·x` as computed by
`partial_sign`, the signature `{R, s}` verifies against `X`, because
`G·s = R + c·X`.  (Proved for an arbitrary deterministic challenge
function, so in particular for the crate's SHA-256
`compute_challenge`.) -/
theorem C2_single_party_schnorr (chal : ChalFun) (id : Nat) (x r : Scalar) (msg : List Nat) :
    SchnorrSignature.verify chal
      { R := compute_nonce_point r,
        s := (partial_sign (Participant.from_secret id x) r
                (chal (compute_nonce_point r) (GENERATOR * x) msg)).s_i }
      msg (GENERATOR * x) = true := by
  simp only [SchnorrSignature.verify, partial_sign, Participant.from_secret,
    compute_nonce_point, decide_eq_true_eq]
  ring

/-- C3 counterexample: at the violating input `(n, t) = (3, 1)` the
source's `assert!(t >= 2 && t <= n)` fails, i.e. `shamir_keygen`
panics (modelled as `none`); it has no error return at all (its Rust
return type is plain `KeygenOutput`, not `Result`), so no catchable
`InvalidThresholdParameters` error value is produced. -/
theorem C3_counterexample_panic : shamir_keygen 3 1 0 [] = none := by decide

/-- C3 amended: `shamir_keygen` checks the precondition `2 ≤ t ≤ n`,
but every violating input makes the `assert!` panic (process abort,
modelled as `none`) instead of returning a catchable
`InvalidThresholdParameters` error. -/
theorem C3_assert_panics (n t : Nat) (secret : Scalar) (rand : List Scalar)
    (h : t < 2 ∨ n < t) : shamir_keygen n t secret rand = none := by
  unfold shamir_keygen
  rw [if_neg (by omega : ¬(2 ≤ t ∧ t ≤ n))]

/-- C3 witness: the amended theorem applied at `(n, t) = (5, 7)`. -/
theorem C3_assert_panics_witness : shamir_keygen 5 7 0 [] = none :=
  C3_assert_panics 5 7 0 [] (by decide)

/-- C4 counterexample: for `id_i = 1` and `ids = [1, 1, 2]` (which
contains a duplicate of `id_i`) the loop skips both copies of `id_i`,
the denominator product is `1 ≠ 0`, and `lagrange_coefficient`
returns the value `2` - contradicting the claim that a duplicate of
`id_i` zeroes the denominator and produces an explicit error. -/
theorem C4_counterexample_duplicate :
    (lagrangeNumDen 1 [1, 1, 2]).2 = 1 ∧
    lagrange_coefficient 1 [1, 1, 2] = some 2 := by
  constructor
  · decide
  · have h : lagrangeNumDen 1 [1, 1, 2] = (2, 1) := by decide
    simp [lagrange_coefficient, h, invert, inv_one]

/-- C4 amended: for `u64` arguments the denominator product
`Π_{j≠i}(id_j − id_i)` is never zero (entries equal to `id_i` are
skipped by the loop, and distinct `u64` ids stay distinct modulo
`qOrder`), so `lagrange_coefficient` never reaches the zero-denominator
case and always returns
`(Π_{j≠i} id_j) · (Π_{j≠i}(id_j − id_i))⁻¹ mod q`.  There is no
explicit-error path: a zero denominator, were it reachable, would
panic through `.unwrap()` (modelled as `none`). -/
theorem C4_lagrange_total (id_i : Nat) (ids : List Nat)
    (hi : id_i < 2^64) (hids : ∀ j ∈ ids, j < 2^64) :
    (lagrangeNumDen id_i ids).2 ≠ 0 ∧
    lagrange_coefficient id_i ids =
      some ((lagrangeNumDen id_i ids).1 * ((lagrangeNumDen id_i ids).2)⁻¹) := by
  have hq : (2:Nat)^64 < qOrder := by decide
  have hi' : id_i < qOrder := lt_trans hi hq
  have hids' : ∀ j ∈ ids, j < qOrder := fun j hj => lt_trans (hids j hj) hq
  exact ⟨lagrangeDen_ne_zero id_i ids hi' hids',
    lagrange_coefficient_eq_some id_i ids hi' hids'⟩

/-- C4 witness: the amended theorem applied at `id_i = 1`,
`ids = [1, 2]`. -/
theorem C4_lagrange_total_witness :
    (lagrangeNumDen 1 [1, 2]).2 ≠ 0 ∧
    lagrange_coefficient 1 [1, 2] =
      some ((lagrangeNumDen 1 [1, 2]).1 * ((lagrangeNumDen 1 [1, 2]).2)⁻¹) :=
  C4_lagrange_total 1 [1, 2] (by decide) (by decide)

/-- C7: structure of `shamir_keygen(n, t)` for `2 ≤ t ≤ n`: the
participants list has exactly `n` entries with ids `1..n` in order,
each share is the polynomial evaluated at the id and each public share
is derived as `X_i = G·x_i`; the public key is `G·secret`, which is
also commitment 0; and the commitment list has exactly `t` entries,
one `C_j = G·coefficient_j` per coefficient. -/
theorem C7_keygen_structure (n t : Nat) (secret : Scalar) (rand : List Scalar)
    (out : KeygenOutput) (hrand : rand.length = t - 1)
    (hout : shamir_keygen n t secret rand = some out) :
    out.participants.length = n ∧
    (∀ k, k < n → out.participants[k]? =
      some { id := k + 1,
             x_i := eval_polynomial (random_polynomial secret rand) (k + 1),
             X_i := GENERATOR * eval_polynomial (random_polynomial secret rand) (k + 1) }) ∧
    out.public_key = GENERATOR * secret ∧
    out.commitments[0]? = some out.public_key ∧
    out.commitments.length = t ∧
    (∀ j, j < t → out.commitments[j]? =
      ((random_polynomial secret rand)[j]?).map calculate_commitment) := by
  obtain ⟨⟨ht2, htn⟩, hparts, hpk, hcomm⟩ := shamir_keygen_eq n t secret rand out hout
  refine ⟨?_, ?_, hpk, ?_, ?_, ?_⟩
  · rw [hparts, List.length_map, List.length_range]
  · intro k hk
    rw [hparts, List.getElem?_map, List.getElem?_range hk, Option.map_some']
  · rw [hcomm, List.getElem?_map]
    simp [random_polynomial, calculate_commitment, hpk]
  · rw [hcomm, List.length_map, random_polynomial, List.length_cons, hrand]
    omega
  · intro j hj
    rw [hcomm, List.getElem?_map]

/-- The concrete `KeygenOutput` of `shamir_keygen 2 2 0 [0]` (the
dealer polynomial is identically zero). -/
def keygen220 : KeygenOutput :=
  { participants := [{ id := 1, x_i := 0, X_i := 0 }, { id := 2, x_i := 0, X_i := 0 }],
    public_key := 0, commitments := [0, 0] }

/-- C7 witness: the theorem applied to the concrete group
`shamir_keygen 2 2 0 [0]`. -/
theorem C7_keygen_structure_witness :
    keygen220.participants.length = 2 ∧
    (∀ k, k < 2 → keygen220.participants[k]? =
      some { id := k + 1,
             x_i := eval_polynomial (random_polynomial 0 [0]) (k + 1),
             X_i := GENERATOR * eval_polynomial (random_polynomial 0 [0]) (k + 1) }) ∧
    keygen220.public_key = GENERATOR * 0 ∧
    keygen220.commitments[0]? = some keygen220.public_key ∧
    keygen220.commitments.length = 2 ∧
    (∀ j, j < 2 → keygen220.commitments[j]? =
      ((random_polynomial 0 [0])[j]?).map calculate_commitment) :=
  C7_keygen_structure 2 2 0 [0] keygen220 (by decide) (by decide)

/-- C5 counterexample: in the group `shamir_keygen 2 2 0 [0]` (a legal
dealer randomness draw in which the degree-1 coefficient is zero, so
the polynomial is constant), participant 1's share still verifies
after mutating the id from `1` to `2` - refuting the unconditional
claim that mutating the id makes `verify_share` return `false`. -/
theorem C5_counterexample_id_mutation :
    shamir_keygen 2 2 0 [0] = some keygen220 ∧
    keygen220.participants[0]? = some { id := 1, x_i := 0, X_i := 0 } ∧
    (2 : Nat) ≠ 1 ∧
    verify_share 2 0 keygen220.commitments = true := by
  refine ⟨by decide, by decide, by decide, by decide⟩

/-- C5 amended: for every group produced by `shamir_keygen` and every
participant in it, `verify_share(id, x_i, commitments)` is `true`;
mutating the share value or any single commitment makes it `false`;
and mutating the id makes it `false` provided the dealer polynomial
takes a different value at the new id (for degenerate random draws -
e.g. all random coefficients zero - a mutated id can still verify).
`verify_share` computes `lhs = G·x_i`, `rhs = Σ commitments[j]·id^j`
and returns the boolean `lhs == rhs`, never an error. -/
theorem C5_verify_share (n t : Nat) (secret : Scalar) (rand : List Scalar)
    (out : KeygenOutput) (hn64 : n < 2^64)
    (hout : shamir_keygen n t secret rand = some out)
    (p : Participant) (hp : p ∈ out.participants) :
    verify_share p.id p.x_i out.commitments = true ∧
    (∀ x' : Scalar, x' ≠ p.x_i → verify_share p.id x' out.commitments = false) ∧
    (∀ id' : Nat, eval_polynomial (random_polynomial secret rand) id' ≠
        eval_polynomial (random_polynomial secret rand) p.id →
      verify_share id' p.x_i out.commitments = false) ∧
    (∀ j : Nat, j < out.commitments.length →
      ∀ C' : Point, C' ≠ out.commitments.getD j 0 →
        verify_share p.id p.x_i (out.commitments.set j C') = false) := by
  obtain ⟨⟨ht2, htn⟩, hparts, hpk, hcomm⟩ := shamir_keygen_eq n t secret rand out hout
  obtain ⟨hid1, hidn, hpeq⟩ := keygen_participant_mem n t secret rand out hout p hp
  have hcomm' : out.commitments = random_polynomial secret rand := by
    rw [hcomm, map_calculate_commitment]
  have hq : (2:Nat)^64 < qOrder := by decide
  have hxi : p.x_i = (polyOf (random_polynomial secret rand)).eval (Nat.cast p.id) := by
    conv_lhs => rw [hpeq]
    exact eval_polynomial_eq _ _
  have hidcast : (Nat.cast p.id : Scalar) ≠ 0 := by
    intro h0
    have hv := congrArg ZMod.val h0
    rw [ZMod.val_cast_of_lt (by omega : p.id < qOrder), ZMod.val_zero] at hv
    omega
  refine ⟨?_, ?_, ?_, ?_⟩
  · rw [verify_share_eq, hcomm', decide_eq_true_eq, GENERATOR, one_mul, hxi]
  · intro x' hx'
    rw [verify_share_eq, hcomm', decide_eq_false_iff_not, GENERATOR, one_mul]
    rw [← hxi] at *
    exact fun hcon => hx' (by rw [hcon, hxi])
  · intro id' hne
    rw [verify_share_eq, hcomm', decide_eq_false_iff_not, GENERATOR, one_mul]
    intro hcon
    apply hne
    rw [← eval_polynomial_eq] at hcon
    rw [← hcon]
    conv_lhs => rw [hpeq]
  · intro j hj C' hC'
    rw [verify_share_eq, decide_eq_false_iff_not, GENERATOR, one_mul]
    rw [hcomm'] at hj hC' ⊢
    rw [polyOf_set_eval _ _ _ j hj, hxi]
    intro hcon
    have hzero : (C' - (random_polynomial secret rand).getD j 0) * (Nat.cast p.id : Scalar)^j
        = 0 := by
      have := congrArg
        (fun z => z - (polyOf (random_polynomial secret rand)).eval (Nat.cast p.id)) hcon
      simpa using this.symm
    rcases mul_eq_zero.mp hzero with hz | hz
    · exact hC' (by rwa [sub_eq_zero] at hz)
    · exact pow_ne_zero j hidcast hz

/-- C5 witness: the amended theorem applied to the group
`shamir_keygen 2 2 0 [0]` and its participant 1. -/
theorem C5_verify_share_witness :
    verify_share (1 : Nat) (0 : Scalar) keygen220.commitments = true ∧
    (∀ x' : Scalar, x' ≠ ({ id := 1, x_i := 0, X_i := 0 } : Participant).x_i →
      verify_share 1 x' keygen220.commitments = false) ∧
    (∀ id' : Nat, eval_polynomial (random_polynomial 0 [0]) id' ≠
        eval_polynomial (random_polynomial 0 [0]) 1 →
      verify_share id' 0 keygen220.commitments = false) ∧
    (∀ j : Nat, j < keygen220.commitments.length →
      ∀ C' : Point, C' ≠ keygen220.commitments.getD j 0 →
        verify_share 1 0 (keygen220.commitments.set j C') = false) :=
  C5_verify_share 2 2 0 [0] keygen220 (by decide) (by decide)
    { id := 1, x_i := 0, X_i := 0 } (by decide)

/-- C6: `lagrange_coefficient`-weighted summation reconstructs
`f(0) = coeffs[0]` exactly: for every list of `t` coefficients and
every set of at least `t` distinct nonzero `u64` ids, every
`lagrange_coefficient` call succeeds and
`Σ_i λ_i · eval_polynomial(coeffs, id_i) = coeffs[0]` in the scalar
field. -/
theorem C6_lagrange_reconstruction (coeffs : List Scalar) (ids : List Nat)
    (hnd : ids.Nodup) (hpos : ∀ j ∈ ids, 0 < j) (hbound : ∀ j ∈ ids, j < 2^64)
    (hne : coeffs ≠ []) (hlen : coeffs.length ≤ ids.length) :
    (∀ i ∈ ids, (lagrange_coefficient i ids).isSome) ∧
    (ids.map (fun i => (lagrange_coefficient i ids).getD 0 * eval_polynomial coeffs i)).sum
      = coeffs.headD 0 ∧
    eval_polynomial coeffs 0 = coeffs.headD 0 := by
  have hq : (2:Nat)^64 < qOrder := by decide
  have hb' : ∀ j ∈ ids, j < qOrder := fun j hj => lt_trans (hbound j hj) hq
  have hzero : eval_polynomial coeffs 0 = coeffs.headD 0 := by
    rw [eval_polynomial_eq, Nat.cast_zero, polyOf_eval_zero]
  refine ⟨?_, ?_, hzero⟩
  · intro i hi
    rw [lagrange_coefficient_eq_some i ids (hb' i hi) hb']
    rfl
  · have hmap : ids.map (fun i => (lagrange_coefficient i ids).getD 0 * eval_polynomial coeffs i)
        = ids.map (fun i => lambda0 i ids * eval_polynomial coeffs i) := by
      apply List.map_congr_left
      intro i hi
      rw [lagrange_coefficient_eq_some i ids (hb' i hi) hb']
      rfl
    rw [hmap, lagrange_reconstruct coeffs ids hnd hb' hlen, hzero]

/-- C6 witness: the theorem applied to `coeffs = [3, 5]`,
`ids = [1, 2]`. -/
theorem C6_lagrange_reconstruction_witness :
    (∀ i ∈ [1, 2], (lagrange_coefficient i [1, 2]).isSome) ∧
    ([1, 2].map (fun i =>
        (lagrange_coefficient i [1, 2]).getD 0 *
          eval_polynomial [(3 : Scalar), 5] i)).sum
      = ([(3 : Scalar), 5]).headD 0 ∧
    eval_polynomial [(3 : Scalar), 5] 0 = ([(3 : Scalar), 5]).headD 0 :=
  C6_lagrange_reconstruction [(3 : Scalar), 5] [1, 2] (by decide) (by decide)
    (by decide) (by decide) (by decide)

/-- C1: threshold signing correctness.  For every valid group
`shamir_keygen(n, t)` with `2 ≤ t ≤ n`, every subset of exactly `t`
participants, per-participant nonces `r_i` with nonce points
`R_i = G·r_i`, session nonce `R = aggregate_nonce` over the subset's
id-set, challenge `c = chal(R, public_key, msg)`, partials
`partial_sign(participant, r_i, c)` and the same id-set in
`finalize_signature_lagrange`: the finalize call succeeds and the
resulting signature verifies against the group public key.  (Proved
for an arbitrary challenge function, in particular the crate's
SHA-256 `compute_challenge`.) -/
theorem C1_threshold_signature_verifies
    (chal : ChalFun) (n t : Nat) (secret : Scalar) (rand : List Scalar)
    (out : KeygenOutput) (msg : List Nat)
    (S : List Nat) (r : Nat → Scalar) (ps : Nat → Participant)
    (hn64 : n < 2^64)
    (hrand : rand.length = t - 1)
    (hout : shamir_keygen n t secret rand = some out)
    (hSnd : S.Nodup) (hSlen : S.length = t)
    (hps : ∀ i ∈ S, ps i ∈ out.participants ∧ (ps i).id = i) :
    ∃ R sig,
      aggregate_nonce (S.map (fun i => (i, compute_nonce_point (r i)))) S = some R ∧
      finalize_signature_lagrange
        (S.map (fun i => partial_sign (ps i) (r i) (chal R out.public_key msg))) R
        = some sig ∧
      SchnorrSignature.verify chal sig msg out.public_key = true := by
  classical
  obtain ⟨⟨ht2, htn⟩, hparts, hpk, hcomm⟩ := shamir_keygen_eq n t secret rand out hout
  have hSmem : ∀ i ∈ S, 1 ≤ i ∧ i ≤ n ∧
      ps i = { id := i,
               x_i := eval_polynomial (random_polynomial secret rand) i,
               X_i := GENERATOR * eval_polynomial (random_polynomial secret rand) i } := by
    intro i hi
    obtain ⟨hmem, hid⟩ := hps i hi
    obtain ⟨h1, h2, heq⟩ := keygen_participant_mem n t secret rand out hout (ps i) hmem
    rw [hid] at h1 h2 heq
    exact ⟨h1, h2, heq⟩
  have hq : (2:Nat)^64 < qOrder := by decide
  have hSq : ∀ i ∈ S, i < qOrder := by
    intro i hi
    obtain ⟨h1, h2, -⟩ := hSmem i hi
    omega
  have hRagg := aggregate_nonce_eq_sum (S.map (fun i => (i, compute_nonce_point (r i)))) S
    hSq (by
      intro p hp
      rcases List.mem_map.mp hp with ⟨i, hi, rfl⟩
      exact hSq i hi)
  have hR' : ((S.map (fun i => (i, compute_nonce_point (r i)))).map
        (fun nc => nc.2 * lambda0 nc.1 S)).sum
      = (S.map (fun i => lambda0 i S * r i)).sum := by
    rw [List.map_map]
    apply congrArg
    apply List.map_congr_left
    intro i hi
    simp only [Function.comp_apply, compute_nonce_point, GENERATOR, one_mul]
    ring
  set Rv : Point := ((S.map (fun i => (i, compute_nonce_point (r i)))).map
    (fun nc => nc.2 * lambda0 nc.1 S)).sum with hRv
  set c : Scalar := chal Rv out.public_key msg with hc
  have hpartials_eq : S.map (fun i => partial_sign (ps i) (r i) c)
      = S.map (fun i =>
          ({ id := i,
             s_i := r i + eval_polynomial (random_polynomial secret rand) i * c }
           : PartialSignature)) := by
    apply List.map_congr_left
    intro i hi
    obtain ⟨-, -, hpsi⟩ := hSmem i hi
    rw [partial_sign, hpsi]
  have hidslist : (S.map (fun i => partial_sign (ps i) (r i) c)).map PartialSignature.id
      = S := by
    rw [hpartials_eq, List.map_map]
    have hcomp : (PartialSignature.id ∘ fun i =>
        ({ id := i,
           s_i := r i + eval_polynomial (random_polynomial secret rand) i * c }
         : PartialSignature)) = fun i => i := rfl
    rw [hcomp, List.map_id']
  have hpbound : ∀ p ∈ S.map (fun i => partial_sign (ps i) (r i) c), p.id < qOrder := by
    intro p hp
    rw [hpartials_eq] at hp
    rcases List.mem_map.mp hp with ⟨i, hi, rfl⟩
    exact hSq i hi
  have hfin := finalize_signature_eq_sum (S.map (fun i => partial_sign (ps i) (r i) c))
    Rv hpbound
  rw [hidslist] at hfin
  have hs_eq : ((S.map (fun i => partial_sign (ps i) (r i) c)).map
        (fun p => lambda0 p.id S * p.s_i)).sum
      = (S.map (fun i =>
          lambda0 i S * (r i + eval_polynomial (random_polynomial secret rand) i * c))).sum := by
    rw [hpartials_eq, List.map_map]
    rfl
  have hrecon : (S.map (fun i =>
      lambda0 i S * eval_polynomial (random_polynomial secret rand) i)).sum = secret := by
    have hlen : (random_polynomial secret rand).length ≤ S.length := by
      simp only [random_polynomial, List.length_cons]
      omega
    rw [lagrange_reconstruct (random_polynomial secret rand) S hSnd hSq hlen,
      eval_polynomial_eq, Nat.cast_zero, polyOf_eval_zero]
    rfl
  have hsplit : S.map (fun i =>
        lambda0 i S * (r i + eval_polynomial (random_polynomial secret rand) i * c))
      = S.map (fun i => (lambda0 i S * r i) +
          (lambda0 i S * eval_polynomial (random_polynomial secret rand) i) * c) := by
    apply List.map_congr_left
    intro i hi
    ring
  refine ⟨Rv, _, hRagg, hfin, ?_⟩
  simp only [SchnorrSignature.verify, decide_eq_true_eq]
  rw [hs_eq, hsplit, sum_map_affine S (fun i => lambda0 i S * r i)
    (fun i => lambda0 i S * eval_polynomial (random_polynomial secret rand) i) c, hrecon,
    ← hc, hpk, hR', GENERATOR]
  ring

/-- C1 witness: the theorem applied to the concrete group
`shamir_keygen 2 2 0 [0]`, subset `{1, 2}`, zero nonces, empty
message and the constant-zero challenge function. -/
theorem C1_threshold_signature_verifies_witness :
    ∃ R sig,
      aggregate_nonce ([1, 2].map (fun i => (i, compute_nonce_point (0 : Scalar)))) [1, 2]
        = some R ∧
      finalize_signature_lagrange
        ([1, 2].map (fun i =>
          partial_sign ({ id := i, x_i := 0, X_i := 0 } : Participant) 0
            ((fun (_ _ : Point) (_ : List Nat) => (0 : Scalar)) R keygen220.public_key [])))
        R = some sig ∧
      SchnorrSignature.verify (fun _ _ _ => (0 : Scalar)) sig [] keygen220.public_key
        = true :=
  C1_threshold_signature_verifies (fun _ _ _ => 0) 2 2 0 [0] keygen220 [] [1, 2]
    (fun _ => 0) (fun i => { id := i, x_i := 0, X_i := 0 })
    (by decide) (by decide) (by decide) (by decide) (by decide) (by decide)

/-- C10: the duplicated crate-root API in `lib.rs` agrees with the
module-scoped API: `lagrange_coefficient`, `aggregate_public_key`,
`aggregate_nonce`, `partial_sign`, `finalize_signature_lagrange` and
`SchnorrSignature::verify` as re-declared in `lib.rs` return results
equal to the `threshold.rs`/`schnorr.rs` functions on every input
(both files also carry textually identical `compute_challenge`
bodies, reflected by using the same challenge function on both
sides). -/
theorem C10_lib_duplicates_agree :
    (∀ (id_i : Nat) (ids : List Nat),
      Lib.lagrange_coefficient id_i ids = lagrange_coefficient id_i ids) ∧
    (∀ public_keys : List (Nat × Point),
      Lib.aggregate_public_key public_keys = aggregate_public_key public_keys) ∧
    (∀ (nonces : List (Nat × Point)) (ids : List Nat),
      Lib.aggregate_nonce nonces ids = aggregate_nonce nonces ids) ∧
    (∀ (p : Participant) (r_i c : Scalar),
      Lib.partial_sign p r_i c = partial_sign p r_i c) ∧
    (∀ (partials : List PartialSignature) (R : Point),
      Lib.finalize_signature_lagrange partials R = finalize_signature_lagrange partials R) ∧
    (∀ (chal : ChalFun) (sig : SchnorrSignature) (msg : List Nat) (X : Point),
      Lib.verify chal sig msg X = SchnorrSignature.verify chal sig msg X) :=
  ⟨fun _ _ => rfl, fun _ => rfl, fun _ _ => rfl, fun _ _ _ => rfl, fun _ _ => rfl,
   fun _ _ _ _ => rfl⟩

/-!
Hex and byte lemmas for the encoding claims
-/

theorem hexVal_hexDigit (n : Nat) (h : n < 16) : hexVal (hexDigit n) = some n := by
  interval_cases n <;> decide

theorem hexDecode_hexEncode (bs : List Nat) (h : ∀ b ∈ bs, b < 256) :
    hexDecode (hexEncode bs) = some bs := by
  induction bs with
  | nil => rfl
  | cons b bs ih =>
    have hb : b < 256 := h b (List.mem_cons_self b bs)
    have hdiv : b / 16 < 16 := by omega
    have hmod : b % 16 < 16 := by omega
    have ihh := ih (fun x hx => h x (List.mem_cons_of_mem b hx))
    show hexDecode (hexDigit (b/16) :: hexDigit (b%16) :: hexEncode bs) = some (b :: bs)
    simp only [hexDecode, hexVal_hexDigit _ hdiv, hexVal_hexDigit _ hmod, ihh,
      Option.bind_eq_bind, Option.some_bind, Option.pure_def]
    have hbb : b / 16 * 16 + b % 16 = b := by omega
    rw [hbb]

theorem natToBytesBE_length (k : Nat) : ∀ x : Nat, (natToBytesBE k x).length = k := by
  induction k with
  | zero => intro x; rfl
  | succ m ih =>
    intro x
    simp only [natToBytesBE, List.length_append, List.length_cons, List.length_nil, ih]

theorem natToBytesBE_lt (k : Nat) : ∀ (x : Nat), ∀ b ∈ natToBytesBE k x, b < 256 := by
  induction k with
  | zero => intro x b hb; simp [natToBytesBE] at hb
  | succ m ih =>
    intro x b hb
    simp only [natToBytesBE] at hb
    rcases List.mem_append.mp hb with hmem | hmem
    · exact ih (x / 256) b hmem
    · simp only [List.mem_singleton] at hmem
      omega

theorem bytesToNatBE_append_single (l : List Nat) (b : Nat) :
    bytesToNatBE (l ++ [b]) = bytesToNatBE l * 256 + b := by
  simp [bytesToNatBE, List.foldl_append]

theorem bytesToNatBE_natToBytesBE (k : Nat) : ∀ x : Nat, x < 256^k →
    bytesToNatBE (natToBytesBE k x) = x := by
  induction k with
  | zero =>
    intro x hx
    simp only [pow_zero, Nat.lt_one_iff] at hx
    subst hx
    rfl
  | succ m ih =>
    intro x hx
    have hdiv : x / 256 < 256^m := by
      rw [pow_succ] at hx
      omega
    simp only [natToBytesBE, bytesToNatBE_append_single, ih (x / 256) hdiv]
    omega

theorem hex_to_scalar_roundtrip (s : Scalar) :
    hex_to_scalar (scalar_to_hex s) = Except.ok s := by
  have hval : s.val < qOrder := ZMod.val_lt s
  have h32 : s.val < 256^32 := lt_trans hval (by decide)
  unfold hex_to_scalar scalar_to_hex
  rw [hexDecode_hexEncode _ (natToBytesBE_lt 32 s.val)]
  dsimp only
  rw [natToBytesBE_length 32 s.val, bytesToNatBE_natToBytesBE 32 s.val h32,
    if_neg (by simp), if_pos hval, ZMod.natCast_rightInverse s]

theorem hex_to_pp_roundtrip (P : Option AffineCoords)
    (h : ∀ A, P = some A → onCurve A) : hex_to_pp (pp_to_hex P) = Except.ok P := by
  cases P with
  | none => rfl
  | some A =>
    obtain ⟨hx, hy, heq⟩ := h A rfl
    have hx32 : A.x < 256^32 := lt_trans hx (by decide)
    have hy32 : A.y < 256^32 := lt_trans hy (by decide)
    unfold hex_to_pp pp_to_hex pp_to_bytes
    rw [hexDecode_hexEncode _ (by
      intro b hb
      rcases List.mem_cons.mp hb with hb4 | hbrest
      · omega
      · rcases List.mem_append.mp hbrest with hmem | hmem
        · exact natToBytesBE_lt 32 A.x b hmem
        · exact natToBytesBE_lt 32 A.y b hmem)]
    show point_from_bytes (4 :: (natToBytesBE 32 A.x ++ natToBytesBE 32 A.y)) = Except.ok (some A)
    unfold point_from_bytes
    rw [if_neg (by simp)]
    have hlen : (natToBytesBE 32 A.x ++ natToBytesBE 32 A.y).length = 64 := by
      simp [natToBytesBE_length]
    have htake : (natToBytesBE 32 A.x ++ natToBytesBE 32 A.y).take 32 = natToBytesBE 32 A.x :=
      List.take_left' (natToBytesBE_length 32 A.x)
    have hdrop : (natToBytesBE 32 A.x ++ natToBytesBE 32 A.y).drop 32 = natToBytesBE 32 A.y :=
      List.drop_left' (natToBytesBE_length 32 A.x)
    simp only [hlen, htake, hdrop, bytesToNatBE_natToBytesBE 32 A.x hx32,
      bytesToNatBE_natToBytesBE 32 A.y hy32]
    rw [if_neg (by simp)]
    rw [if_neg (by simp)]
    rw [if_pos (by simp)]
    rw [if_pos ⟨hx, hy, heq⟩]

/-- Byte sequences that canonically represent a scalar: exactly 32
bytes whose big-endian value is below the group order. -/
def scalarBytesWF (raw : List Nat) : Prop :=
  raw.length = 32 ∧ bytesToNatBE raw < qOrder

/-- Byte sequences that canonically represent a SEC1 point: the
identity byte, a compressed or compact encoding whose x-coordinate is
canonical and admits a square root of `x^3 + 7`, or an uncompressed
encoding with canonical on-curve coordinates. -/
def pointBytesWF (raw : List Nat) : Prop :=
  raw = [0] ∨
  (∃ tag rest, raw = tag :: rest ∧
    (((tag = 2 ∨ tag = 3) ∧ rest.length = 32 ∧ bytesToNatBE rest < pBase ∧
       powModF 256 ((bytesToNatBE rest * bytesToNatBE rest * bytesToNatBE rest + 7) % pBase)
           ((pBase + 1) / 4) pBase *
         powModF 256 ((bytesToNatBE rest * bytesToNatBE rest * bytesToNatBE rest + 7) % pBase)
           ((pBase + 1) / 4) pBase % pBase
         = (bytesToNatBE rest * bytesToNatBE rest * bytesToNatBE rest + 7) % pBase) ∨
     (tag = 5 ∧ rest.length = 32 ∧ bytesToNatBE rest < pBase ∧
       powModF 256 ((bytesToNatBE rest * bytesToNatBE rest * bytesToNatBE rest + 7) % pBase)
           ((pBase + 1) / 4) pBase *
         powModF 256 ((bytesToNatBE rest * bytesToNatBE rest * bytesToNatBE rest + 7) % pBase)
           ((pBase + 1) / 4) pBase % pBase
         = (bytesToNatBE rest * bytesToNatBE rest * bytesToNatBE rest + 7) % pBase) ∨
     (tag = 4 ∧ rest.length = 64 ∧
       bytesToNatBE (rest.take 32) < pBase ∧ bytesToNatBE (rest.drop 32) < pBase ∧
       bytesToNatBE (rest.drop 32) * bytesToNatBE (rest.drop 32) % pBase =
         (bytesToNatBE (rest.take 32) * bytesToNatBE (rest.take 32) *
           bytesToNatBE (rest.take 32) + 7) % pBase)))

theorem point_from_bytes_isOk_wf (raw : List Nat) :
    (point_from_bytes raw).isOk = true → pointBytesWF raw := by
  intro hok
  unfold point_from_bytes at hok
  by_cases h0 : raw = [0]
  · exact Or.inl h0
  rw [if_neg h0] at hok
  cases raw with
  | nil => exact absurd hok (by decide)
  | cons tag rest =>
    refine Or.inr ⟨tag, rest, rfl, ?_⟩
    dsimp only at hok
    by_cases h1 : (tag = 2 ∨ tag = 3) ∧ rest.length = 32
    · rw [if_pos h1] at hok
      by_cases h2 : bytesToNatBE rest < pBase
      · rw [if_pos h2] at hok
        by_cases h3 :
            powModF 256 ((bytesToNatBE rest * bytesToNatBE rest * bytesToNatBE rest + 7) % pBase)
                ((pBase + 1) / 4) pBase *
              powModF 256 ((bytesToNatBE rest * bytesToNatBE rest * bytesToNatBE rest + 7) % pBase)
                ((pBase + 1) / 4) pBase % pBase
              = (bytesToNatBE rest * bytesToNatBE rest * bytesToNatBE rest + 7) % pBase
        · exact Or.inl ⟨h1.1, h1.2, h2, h3⟩
        · rw [if_neg h3] at hok
          exact absurd hok (by decide)
      · rw [if_neg h2] at hok
        exact absurd hok (by decide)
    · rw [if_neg h1] at hok
      by_cases h1c : tag = 5 ∧ rest.length = 32
      · rw [if_pos h1c] at hok
        by_cases h2c : bytesToNatBE rest < pBase
        · rw [if_pos h2c] at hok
          by_cases h3c :
              powModF 256 ((bytesToNatBE rest * bytesToNatBE rest * bytesToNatBE rest + 7) % pBase)
                  ((pBase + 1) / 4) pBase *
                powModF 256 ((bytesToNatBE rest * bytesToNatBE rest * bytesToNatBE rest + 7) % pBase)
                  ((pBase + 1) / 4) pBase % pBase
                = (bytesToNatBE rest * bytesToNatBE rest * bytesToNatBE rest + 7) % pBase
          · exact Or.inr (Or.inl ⟨h1c.1, h1c.2, h2c, h3c⟩)
          · rw [if_neg h3c] at hok
            exact absurd hok (by decide)
        · rw [if_neg h2c] at hok
          exact absurd hok (by decide)
      · rw [if_neg h1c] at hok
        by_cases h4 : tag = 4 ∧ rest.length = 64
        · rw [if_pos h4] at hok
          by_cases h5 : bytesToNatBE (rest.take 32) < pBase ∧
              bytesToNatBE (rest.drop 32) < pBase ∧
              bytesToNatBE (rest.drop 32) * bytesToNatBE (rest.drop 32) % pBase =
                (bytesToNatBE (rest.take 32) * bytesToNatBE (rest.take 32) *
                  bytesToNatBE (rest.take 32) + 7) % pBase
          · exact Or.inr (Or.inr ⟨h4.1, h4.2, h5.1, h5.2.1, h5.2.2⟩)
          · rw [if_neg h5] at hok
            exact absurd hok (by decide)
        · rw [if_neg h4] at hok
          exact absurd hok (by decide)

/-- C8: encoding round-trips and decoder error-completeness.
Decoding the encoding of any scalar returns it exactly; decoding the
encoding of any valid (identity or on-curve) point returns it exactly;
and on malformed input - text that is not even-length hex, a decoded
byte string that is not exactly the 32-byte representation of a value
below the group order (scalars), or a byte string that is not a
canonical SEC1 point encoding (points) - the decoders return an
`Except.error` value (both decoders are `Except`-valued with no
panicking operation on any path, matching the source's `Result`). -/
theorem C8_encoding_roundtrips :
    (∀ s : Scalar, hex_to_scalar (scalar_to_hex s) = Except.ok s) ∧
    (∀ P : Option AffineCoords, (∀ A, P = some A → onCurve A) →
      hex_to_pp (pp_to_hex P) = Except.ok P) ∧
    (∀ h : List Char, hexDecode h = none →
      (hex_to_scalar h).isOk = false ∧ (hex_to_pp h).isOk = false) ∧
    (∀ (h : List Char) (raw : List Nat), hexDecode h = some raw → ¬ scalarBytesWF raw →
      (hex_to_scalar h).isOk = false) ∧
    (∀ (h : List Char) (raw : List Nat), hexDecode h = some raw → ¬ pointBytesWF raw →
      (hex_to_pp h).isOk = false) := by
  refine ⟨hex_to_scalar_roundtrip, hex_to_pp_roundtrip, ?_, ?_, ?_⟩
  · intro h hd
    constructor
    · unfold hex_to_scalar
      rw [hd]
      rfl
    · unfold hex_to_pp
      rw [hd]
      rfl
  · intro h raw hd hwf
    unfold hex_to_scalar
    rw [hd]
    dsimp only
    by_cases hlen : raw.length = 32
    · rw [if_neg (by simp [hlen])]
      by_cases hlt : bytesToNatBE raw < qOrder
      · exact absurd ⟨hlen, hlt⟩ hwf
      · rw [if_neg hlt]
        rfl
    · rw [if_pos hlen]
      rfl
  · intro h raw hd hwf
    unfold hex_to_pp
    rw [hd]
    cases hok : (point_from_bytes raw).isOk with
    | false => rfl
    | true => exact absurd (point_from_bytes_isOk_wf raw hok) hwf

/-- C8 witness: round trip of the scalar `5` and of the secp256k1
base point; rejection of the non-hex string `"g"`, of the 1-byte
scalar encoding `"00"`, and of the empty point encoding `""`. -/
theorem C8_encoding_roundtrips_witness :
    hex_to_scalar (scalar_to_hex 5) = Except.ok 5 ∧
    hex_to_pp (pp_to_hex (some
      { x := 55066263022277343669578718895168534326250603453777594175500187360389116729240,
        y := 32670510020758816978083085130507043184471273380659243275938904335757337482424 }))
      = Except.ok (some
      { x := 55066263022277343669578718895168534326250603453777594175500187360389116729240,
        y := 32670510020758816978083085130507043184471273380659243275938904335757337482424 }) ∧
    ((hex_to_scalar ['g']).isOk = false ∧ (hex_to_pp ['g']).isOk = false) ∧
    (hex_to_scalar ['0', '0']).isOk = false ∧
    (hex_to_pp ([] : List Char)).isOk = false :=
  ⟨C8_encoding_roundtrips.1 5,
   C8_encoding_roundtrips.2.1 _ (by
     intro A hA
     cases Option.some_inj.mp hA
     decide),
   ⟨(C8_encoding_roundtrips.2.2.1 ['g'] (by decide)).1,
    (C8_encoding_roundtrips.2.2.1 ['g'] (by decide)).2⟩,
   C8_encoding_roundtrips.2.2.2.1 ['0', '0'] [0] (by decide) (by
     intro hwf
     exact absurd hwf.1 (by decide)),
   C8_encoding_roundtrips.2.2.2.2 ([] : List Char) [] (by decide) (by
     intro hwf
     rcases hwf with h | ⟨tag, rest, heq, -⟩
     · exact absurd h (by decide)
     · exact List.noConfusion heq)⟩
